import Mathlib

/-!
Verification development for the cron-expression translator in src/main.rs.

The definitions below are a shallow embedding of the core of that program:
the validating tokenizer (struct TokenIter), the per-field pattern parser
(Field::get_num / get_val / from_toks), the per-kind conversion policy
(the Convert impls), the renderer (Printer::print for Field plus the
inline rendering in respond), and the top-level respond function.

Conventions of the embedding:
- usize is modelled as Nat; str::parse::<usize> overflow is modelled by an
  explicit bound 2^64 in parseUsize.
- Rust panics (slice indexing out of bounds, Option::unwrap on None) are
  modelled by an Option layer: a result of none means the code panics.
- io::Error is modelled by its message string (every error the core builds
  uses ErrorKind::InvalidInput, so the message is the whole content).
- Output written to the TcpStream is accumulated into a String, so that
  partially written output before a failure stays observable.
- The bounded loop fieldsLoopF carries explicit fuel; fuel exhaustion is
  mapped to the panic outcome and is proved unreachable for the fuel that
  respond supplies.
-/

set_option autoImplicit false

namespace Cron

/-- Error values: the message of the io::Error (kind is always InvalidInput). -/
abbrev Err := String

deriving instance DecidableEq for Except

/-- enum Token from the source (Asterik keeps the source's spelling). -/
inductive Token where
  | Delim
  | Asterik
  | Comma
  | Num (c : Char)
  | Dash
  | Slash
  | Alpha (c : Char)
  | EOF
deriving DecidableEq, Repr

/-- Token::from_char: classify one character, none for UnknownCharacter. -/
def Token.from_char (c : Char) : Option Token :=
  if c = '*' then some .Asterik
  else if c = ',' then some .Comma
  else if '0' ≤ c ∧ c ≤ '9' then some (.Num c)
  else if c = '-' then some .Dash
  else if c = '/' then some .Slash
  else if c = ' ' ∨ c = '\t' ∨ c = '\n' ∨ c = '\r' ∨ c = '\x00' then some .Delim
  else if ('a' ≤ c ∧ c ≤ 'z') ∨ ('A' ≤ c ∧ c ≤ 'Z') then some (.Alpha c)
  else none

/-- Token::is_legal_after: the adjacency state machine. -/
def Token.is_legal_after (self t : Token) : Bool :=
  match self with
  | .Asterik =>
    match t with
    | .Delim | .Comma => true
    | _ => false
  | .Comma =>
    match t with
    | .Asterik | .Num _ | .Alpha _ => true
    | _ => false
  | .Num _ =>
    match t with
    | .Delim | .Num _ | .Slash | .Comma | .Dash => true
    | _ => false
  | .Dash =>
    match t with
    | .Num _ | .Alpha _ => true
    | _ => false
  | .Slash =>
    match t with
    | .Num _ | .Asterik | .Alpha _ => true
    | _ => false
  | .Delim | .EOF =>
    match t with
    | .Delim | .Asterik | .Num _ | .Alpha _ => true
    | _ => false
  | .Alpha _ =>
    match t with
    | .Delim | .Alpha _ | .Slash | .Comma | .Dash => true
    | _ => false

/-- The tokens TokenIter yields after the initial synthetic Delim, starting
from a given previous token: stops (yielding nothing more) at an unknown
character, an illegal adjacency, or an illegal end; emits EOF on success. -/
def tokStream : List Char → Token → List Token
  | [], prev => if Token.EOF.is_legal_after prev then [Token.EOF] else []
  | c :: cs, prev =>
    match Token.from_char c with
    | none => []
    | some t => if t.is_legal_after prev then t :: tokStream cs t else []

/-- The full list of tokens TokenIter::collect() produces: the initial
synthetic Delim, then the validated stream. -/
def tokenize (cs : List Char) : List Token :=
  Token.Delim :: tokStream cs Token.Delim

/-- Iterator::last on the collected token list. -/
def lastTok : List Token → Option Token
  | [] => none
  | [t] => some t
  | _ :: t :: ts => lastTok (t :: ts)

/-- Field values: plain numbers for Minute/Hour/DayOfMonth, the 3-letter
names the Convert impls return for Month/DayOfWeek. -/
inductive Value where
  | num (n : Nat)
  | str (s : String)
deriving DecidableEq, Repr

/-- enum Pattern<T> from the source; a and b are the range's from and to. -/
inductive Pattern (T : Type) where
  | At (t : T)
  | Every (step : Nat)
  | Range (a b : T) (step : Nat)
deriving DecidableEq, Repr

/-- The closed set of field kinds (the five policy structs). -/
inductive FieldKind where
  | Minute
  | Hour
  | DayOfMonth
  | Month
  | DayOfWeek
deriving DecidableEq, Repr

def monthNames : List String :=
  ["JAN", "FEB", "MAR", "APR", "MAY", "JUN", "JUL", "AUG", "SEP", "OCT", "NOV", "DEC"]

def dayNames : List String :=
  ["SUN", "MON", "TUE", "WED", "THU", "FRI", "SAT"]

/-- Convert::from_num of each kind: the domain check producing the stored
pattern value. -/
def from_num (k : FieldKind) (n : Nat) : Except Err Value :=
  match k with
  | .Minute =>
    if n < 60 then .ok (.num n) else .error ("Invalid MINUTE value " ++ toString n)
  | .Hour =>
    if n < 24 then .ok (.num n) else .error ("Invalid HOUR value " ++ toString n)
  | .DayOfMonth =>
    if 1 ≤ n ∧ n ≤ 23 then .ok (.num n)
    else .error ("Invalid DAY-OF-MONTH value " ++ toString n)
  | .Month =>
    match n with
    | 1 => .ok (.str "JAN")
    | 2 => .ok (.str "FEB")
    | 3 => .ok (.str "MAR")
    | 4 => .ok (.str "APR")
    | 5 => .ok (.str "MAY")
    | 6 => .ok (.str "JUN")
    | 7 => .ok (.str "JUL")
    | 8 => .ok (.str "AUG")
    | 9 => .ok (.str "SEP")
    | 10 => .ok (.str "OCT")
    | 11 => .ok (.str "NOV")
    | 12 => .ok (.str "DEC")
    | _ => .error ("Invalid MONTH value " ++ toString n)
  | .DayOfWeek =>
    match n with
    | 0 => .ok (.str "SUN")
    | 1 => .ok (.str "MON")
    | 2 => .ok (.str "TUE")
    | 3 => .ok (.str "WED")
    | 4 => .ok (.str "THU")
    | 5 => .ok (.str "FRI")
    | 6 => .ok (.str "SAT")
    | _ => .error ("Invalid DAY-OF-WEEK value " ++ toString n)

/-- Convert::alpha_to_num of each kind; the Month impl's not-found message
names DAY-OF-WEEK, exactly as in the source. -/
def alpha_to_num (k : FieldKind) (s : String) : Except Err Nat :=
  match k with
  | .Minute => .error ("Invalid MINUTE value " ++ s)
  | .Hour => .error ("Invalid HOUR value " ++ s)
  | .DayOfMonth => .error ("Invalid DAY-OF-MONTH value " ++ s)
  | .Month =>
    match monthNames.findIdx? (fun name => name == s) with
    | some i => .ok (i + 1)
    | none => .error ("Invalid DAY-OF-WEEK value " ++ s)
  | .DayOfWeek =>
    match dayNames.findIdx? (fun name => name == s) with
    | some i => .ok i
    | none => .error ("Invalid DAY-OF-WEEK value " ++ s)

/-- The maximal leading run of Num tokens together with the rest of the
slice, as Field::get_num computes it from the position of the first
non-Num token. A result of none means no non-Num token exists, so the
position unwrap in the source panics. (The per-element panic arm inside
the source's map is unreachable: everything before that position is Num.) -/
def numRun : List Token → Option (List Char × List Token)
  | [] => none
  | Token.Num c :: ts =>
    match numRun ts with
    | none => none
    | some (cs, rest) => some (c :: cs, rest)
  | t :: ts => some ([], t :: ts)

/-- Maximal leading run of Alpha tokens, as Field::get_val computes it. -/
def alphaRun : List Token → Option (List Char × List Token)
  | [] => none
  | Token.Alpha c :: ts =>
    match alphaRun ts with
    | none => none
    | some (cs, rest) => some (c :: cs, rest)
  | t :: ts => some ([], t :: ts)

def isDigitChar (c : Char) : Bool := '0' ≤ c && c ≤ '9'

def digitVal (c : Char) : Nat := c.toNat - 48

/-- str::parse::<usize> on the collected run: fails on an empty or
non-digit string and on 64-bit overflow. Num tokens built by the
tokenizer always carry a digit, so the digit test only matters for
token lists not produced by the tokenizer. -/
def parseUsize (cs : List Char) : Option Nat :=
  if cs = [] then none
  else if cs.all isDigitChar then
    if cs.foldl (fun a c => a * 10 + digitVal c) 0 < 18446744073709551616 then
      some (cs.foldl (fun a c => a * 10 + digitVal c) 0)
    else none
  else none

/-- Field::get_num: lex a maximal run of Num tokens and parse it.
none = the position unwrap panicked; the error is NumberParseError. -/
def get_num (s : List Token) : Option (Except Err (List Token × Nat)) :=
  match numRun s with
  | none => none
  | some (cs, rest) =>
    match parseUsize cs with
    | none => some (.error "Error parsing a number")
    | some n => some (.ok (rest, n))

/-- char::to_ascii_uppercase. -/
def asciiUpper (c : Char) : Char :=
  if 'a' ≤ c && c ≤ 'z' then Char.ofNat (c.toNat - 32) else c

/-- Field::get_val: try get_num first; on any get_num error (empty run or
parse failure) fall back to a maximal Alpha run resolved through
alpha_to_num. A get_num panic propagates. -/
def get_val (k : FieldKind) (s : List Token) : Option (Except Err (List Token × Nat)) :=
  match get_num s with
  | none => none
  | some (Except.ok r) => some (.ok r)
  | some (Except.error _) =>
    match alphaRun s with
    | none => none
    | some (cs, rest) =>
      match alpha_to_num k (String.mk (cs.map asciiUpper)) with
      | .ok n => some (.ok (rest, n))
      | .error e => some (.error e)

/-- Field::from_toks: consume one comma-delimited pattern from the front of
s, append it to pats, and return the new pattern list plus the remaining
slice. none = a slice index was out of bounds (panic). -/
def from_toks (k : FieldKind) (pats : List (Pattern Value)) (s : List Token) :
    Option (Except Err (List (Pattern Value) × List Token)) :=
  match s with
  | [] => none
  | t0 :: tail =>
    if t0 = Token.Asterik then
      match tail with
      | [] => none
      | t1 :: tail2 =>
        match t1 with
        | .EOF | .Delim | .Comma => some (.ok (pats ++ [Pattern.Every 1], tail))
        | .Slash =>
          match get_num tail2 with
          | none => none
          | some (.error e) => some (.error e)
          | some (.ok (ret, num)) => some (.ok (pats ++ [Pattern.Every num], ret))
        | _ => some (.error "Illegal char after *")
    else
      match get_val k (t0 :: tail) with
      | none => none
      | some (.error e) => some (.error e)
      | some (.ok (ret, num1)) =>
        match ret with
        | [] => none
        | r0 :: rtail =>
          match r0 with
          | .EOF | .Delim | .Comma =>
            match from_num k num1 with
            | .error e => some (.error e)
            | .ok v => some (.ok (pats ++ [Pattern.At v], r0 :: rtail))
          | .Dash =>
            match get_val k rtail with
            | none => none
            | some (.error e) => some (.error e)
            | some (.ok (ret2, num2)) =>
              if num2 ≤ num1 then
                some (.error ("Range start (" ++ toString num1 ++
                  ") cannot be bigger than or equal to end (" ++ toString num2 ++ ")"))
              else
                match ret2 with
                | [] => none
                | s0 :: stail =>
                  match s0 with
                  | .EOF | .Delim | .Comma =>
                    match from_num k num1 with
                    | .error e => some (.error e)
                    | .ok v1 =>
                      match from_num k num2 with
                      | .error e => some (.error e)
                      | .ok v2 => some (.ok (pats ++ [Pattern.Range v1 v2 1], s0 :: stail))
                  | .Slash =>
                    match get_num stail with
                    | none => none
                    | some (.error e) => some (.error e)
                    | some (.ok (rets, step)) =>
                      match from_num k num1 with
                      | .error e => some (.error e)
                      | .ok v1 =>
                        match from_num k num2 with
                        | .error e => some (.error e)
                        | .ok v2 => some (.ok (pats ++ [Pattern.Range v1 v2 step], rets))
                  | _ => some (.error "Invalid char after range end number")
          | _ => some (.error "Invalid char after number")

/-- FieldDisp::typestr. -/
def typestr (k : FieldKind) : String :=
  match k with
  | .Minute => "minute"
  | .Hour => "hour"
  | .DayOfMonth => "day-of-month"
  | .Month => "month"
  | .DayOfWeek => "day-of-week"

/-- FieldDisp::atstr. -/
def atstr (k : FieldKind) : String :=
  match k with
  | .Minute => "at minute"
  | .Hour => "past hour"
  | .DayOfMonth => "on day-of-month"
  | .Month => "in"
  | .DayOfWeek => "on"

/-- FieldDisp::atword. -/
def atword (k : FieldKind) : String :=
  match k with
  | .Minute => "at"
  | .Hour => "past"
  | .DayOfMonth => "on"
  | .Month => "in"
  | .DayOfWeek => "on"

/-- FieldDisp::everystr: empty for DayOfMonth, Month and DayOfWeek. -/
def everystr (k : FieldKind) : String :=
  match k with
  | .Minute => "at every minute"
  | .Hour => "past every hour"
  | .DayOfMonth => ""
  | .Month => ""
  | .DayOfWeek => ""

/-- Plain Display of a field value (the braces-only form in the source). -/
def dispV : Value → String
  | .num n => toString n
  | .str s => s

/-- Two-digit zero-padded Display of a field value. Every name a Convert
impl stores has three letters, so padding only ever fires for numbers. -/
def dispV02 : Value → String
  | .num n => if n < 10 then "0" ++ toString n else toString n
  | .str s => s

/-- Display for Pattern<T>: two-digit value for At, empty otherwise. -/
def dispPattern : Pattern Value → String
  | .At v => dispV02 v
  | _ => ""

/-- Ordinal suffix from the residue of step mod 20 (the simplified rule). -/
def ordSuffix (r : Nat) : String :=
  if r = 2 then "nd" else if r = 3 then "rd" else "th"

/-- One pattern's rendering inside Printer::print for Field. -/
def printPat (k : FieldKind) (p : Pattern Value) : String :=
  match p with
  | .At v => atstr k ++ " " ++ dispV02 v ++ "\n"
  | .Every n =>
    match n % 20 with
    | 1 => if everystr k = "" then "" else everystr k ++ "\n"
    | 2 => atword k ++ " every " ++ toString n ++ "nd " ++ typestr k ++ "\n"
    | 3 => atword k ++ " every " ++ toString n ++ "rd " ++ typestr k ++ "\n"
    | _ => atword k ++ " every " ++ toString n ++ "th " ++ typestr k ++ "\n"
  | .Range a b step =>
    match step % 20 with
    | 1 => atword k ++ " every " ++ typestr k ++ " from " ++ dispV a ++ " to " ++ dispV b ++ "\n"
    | 2 => atword k ++ " every " ++ toString step ++ "nd " ++ typestr k ++
        " from " ++ dispV a ++ " to " ++ dispV b ++ "\n"
    | 3 => atword k ++ " every " ++ toString step ++ "rd " ++ typestr k ++
        " from " ++ dispV a ++ " to " ++ dispV b ++ "\n"
    | _ => atword k ++ " every " ++ toString step ++ "th " ++ typestr k ++
        " from " ++ dispV a ++ " to " ++ dispV b ++ "\n"

/-- Printer::print for Field: each pattern in insertion order. -/
def printField (k : FieldKind) (pats : List (Pattern Value)) : String :=
  String.join (pats.map (printPat k))

def isAt : Pattern Value → Bool
  | .At _ => true
  | _ => false

/-- Minute/hour compaction in respond: a single "at HH:MM" line when both
fields hold exactly one At pattern, otherwise the generic renderer. -/
def renderMH (minp hrsp : List (Pattern Value)) : String :=
  match minp, hrsp with
  | [pm], [ph] =>
    if isAt pm && isAt ph then "at " ++ dispPattern ph ++ ":" ++ dispPattern pm ++ "\n"
    else printField .Minute [pm] ++ printField .Hour [ph]
  | _, _ => printField .Minute minp ++ printField .Hour hrsp

/-- Day-of-month/month compaction in respond: the "on <month> <day>" line
when both fields hold exactly one At pattern. -/
def domMonCompact (domp monp : List (Pattern Value)) : Option String :=
  match domp, monp with
  | [pd], [pm] =>
    if isAt pd && isAt pm then some ("on " ++ dispPattern pm ++ " " ++ dispPattern pd ++ "\n")
    else none
  | _, _ => none

/-- A field is defined when its pattern list holds a pattern other than
Every(1), as the find in respond computes it. -/
def isDefinedB (pats : List (Pattern Value)) : Bool :=
  pats.any (fun p => !(decide (p = Pattern.Every 1)))

/-- The POSIX combination section of respond: the match on
(is_dom_mon_defined, is_dow_defined). -/
def renderCombine (domp monp dowp : List (Pattern Value)) (printed : Bool) : String :=
  match isDefinedB domp || isDefinedB monp, isDefinedB dowp with
  | true, true =>
    (if printed then "" else printField .DayOfMonth domp ++ printField .Month monp) ++
      "and\n" ++ printField .DayOfWeek dowp
  | true, false =>
    if printed then "" else printField .DayOfMonth domp ++ printField .Month monp
  | false, true =>
    (if printed then "" else printField .DayOfMonth domp) ++ printField .DayOfWeek dowp
  | false, false =>
    if printed then "" else printField .Month monp

/-- The five completed pattern lists of one parse. -/
structure Fields where
  min : List (Pattern Value)
  hrs : List (Pattern Value)
  dom : List (Pattern Value)
  mon : List (Pattern Value)
  dow : List (Pattern Value)
deriving DecidableEq, Repr

/-- Everything respond writes after the "Run" line on a successful parse. -/
def renderFields (fs : Fields) : String :=
  renderMH fs.min fs.hrs ++
    match domMonCompact fs.dom fs.mon with
    | some line => line ++ renderCombine fs.dom fs.mon fs.dow true
    | none => renderCombine fs.dom fs.mon fs.dow false

/-- enum FieldType: the parse-progress state of the field loop. -/
inductive FieldType where
  | Minute
  | Hour
  | DayOfMonth
  | Month
  | DayOfWeek
  | End
deriving DecidableEq, Repr

/-- The kind a loop state dispatches from_toks to; none for End, where the
dispatch returns the Bad CRON error. -/
def stKind : FieldType → Option FieldKind
  | .Minute => some .Minute
  | .Hour => some .Hour
  | .DayOfMonth => some .DayOfMonth
  | .Month => some .Month
  | .DayOfWeek => some .DayOfWeek
  | .End => none

def getPats (fs : Fields) (k : FieldKind) : List (Pattern Value) :=
  match k with
  | .Minute => fs.min
  | .Hour => fs.hrs
  | .DayOfMonth => fs.dom
  | .Month => fs.mon
  | .DayOfWeek => fs.dow

def setPats (fs : Fields) (k : FieldKind) (ps : List (Pattern Value)) : Fields :=
  match k with
  | .Minute => { fs with min := ps }
  | .Hour => { fs with hrs := ps }
  | .DayOfMonth => { fs with dom := ps }
  | .Month => { fs with mon := ps }
  | .DayOfWeek => { fs with dow := ps }

/-- The state advance after a field's tokens are exhausted. The End arm is
unreachable: the dispatch earlier in the same iteration already returned. -/
def advanceState : FieldType → FieldType
  | .Minute => .Hour
  | .Hour => .DayOfMonth
  | .DayOfMonth => .Month
  | .Month => .DayOfWeek
  | .DayOfWeek => .End
  | .End => .End

/-- Condense leading Delims as the inner loop in respond does: recheck the
head each time; EOF breaks the outer loop, anything else resumes there.
none = indexing an empty slice (panic); some none = break the outer loop. -/
def skipDelims : List Token → Option (Option (List Token))
  | [] => none
  | Token.Delim :: ts => skipDelims ts
  | Token.EOF :: _ => some none
  | t :: ts => some (some (t :: ts))

/-- Result of the separator handling at the top of each loop iteration. -/
inductive SepRes where
  | brk
  | badTok
  | cont (ptr : List Token)
deriving DecidableEq, Repr

/-- The match on ptr[0] at the top of the outer loop in respond. -/
def sepStep (ptr : List Token) : Option SepRes :=
  match ptr with
  | [] => none
  | Token.Delim :: _ =>
    match skipDelims ptr with
    | none => none
    | some none => some SepRes.brk
    | some (some p) => some (SepRes.cont p)
  | Token.Comma :: rest => some (SepRes.cont rest)
  | Token.EOF :: _ => some SepRes.brk
  | _ :: _ => some SepRes.badTok

/-- Outcome of the field-consuming loop. -/
inductive LoopRes where
  | panic
  | err (e : Err)
  | done (fs : Fields) (st : FieldType)
deriving DecidableEq, Repr

/-- The outer loop of respond, with explicit fuel. Fuel exhaustion is
mapped to panic and proved unreachable when the fuel exceeds the length
of the token list. The String is the output the loop writes (only the
bad-boundary line). -/
def fieldsLoopF : Nat → Fields → FieldType → List Token → String × LoopRes
  | 0, _, _, _ => ("", LoopRes.panic)
  | Nat.succ fuel, fs, st, ptr =>
    match sepStep ptr with
    | none => ("", LoopRes.panic)
    | some SepRes.brk => ("", LoopRes.done fs st)
    | some SepRes.badTok =>
      ("Pattern doesn't start/end on correct token\n", LoopRes.err "Bad CRON")
    | some (SepRes.cont ptr1) =>
      match stKind st with
      | none => ("", LoopRes.err "Bad CRON")
      | some k =>
        match from_toks k (getPats fs k) ptr1 with
        | none => ("", LoopRes.panic)
        | some (.error e) => ("", LoopRes.err e)
        | some (.ok (pats', ptr2)) =>
          match ptr2 with
          | [] => ("", LoopRes.panic)
          | t2 :: _ =>
            fieldsLoopF fuel (setPats fs k pats')
              (if t2 = Token.Delim ∨ t2 = Token.EOF then advanceState st else st) ptr2

/-- Outcome of one respond call. -/
inductive ROut where
  | ok
  | err (e : Err)
  | panic
deriving DecidableEq, Repr

/-- The parse-then-render pipeline of respond on the mapped expression
string: validate the token stream, run the field loop, then render. The
String holds everything written to the stream before returning. -/
def respondCore (mapstr : String) : String × ROut :=
  match lastTok (tokenize mapstr.data) with
  | none => ("", ROut.panic)
  | some t =>
    if t = Token.EOF then
      match fieldsLoopF ((tokenize mapstr.data).length + 1) ⟨[], [], [], [], []⟩
          FieldType.Minute (tokenize mapstr.data) with
      | (o, LoopRes.panic) => (o, ROut.panic)
      | (o, LoopRes.err e) => (o, ROut.err e)
      | (o, LoopRes.done fs st) =>
        if st = FieldType.End then (o ++ "Run\n" ++ renderFields fs, ROut.ok)
        else (o, ROut.err "Incomplete CRON")
    else ("", ROut.err "CRON syntax error")

/-- The first line of a nonempty character sequence: the segment before
the first newline, less one trailing CR; a final segment with no newline
after it is returned unchanged (str::lines semantics). -/
def firstLineChars (cs : List Char) : List Char :=
  if cs.contains '\n' then
    if (cs.takeWhile (fun a => a != '\n')).getLast? = some '\r' then
      (cs.takeWhile (fun a => a != '\n')).dropLast
    else cs.takeWhile (fun a => a != '\n')
  else cs

/-- str::lines().nth(0): the first line of the request, none when the
string is empty. -/
def firstLine (req : String) : Option String :=
  if req.data = [] then none else some (String.mk (firstLineChars req.data))

/-- fn respond: shorthand expansion on the first line (panicking when the
request has no line), the @reboot short-circuit, then the core pipeline.
On the catch-all arm the whole request string is handed to the core. -/
def respond (req : String) : String × ROut :=
  match firstLine req with
  | none => ("", ROut.panic)
  | some line =>
    if line = "@yearly" ∨ line = "@annually" then respondCore "0 0 1 1 *"
    else if line = "@monthly" then respondCore "0 0 1 * *"
    else if line = "@weekly" then respondCore "0 0 * * 0"
    else if line = "@daily" then respondCore "0 0 * * *"
    else if line = "@hourly" then respondCore "0 * * * *"
    else if line = "@reboot" then ("Run after reboot", ROut.ok)
    else respondCore req

theorem numRun_decomp (s : List Token) :
    ∀ cs rest, numRun s = some (cs, rest) → s = cs.map Token.Num ++ rest := by
  induction s with
  | nil => intro cs rest h; simp [numRun] at h
  | cons t ts ih =>
    intro cs rest h
    cases t
    case Num c =>
      rw [numRun] at h
      cases hnr : numRun ts with
      | none => rw [hnr] at h; simp at h
      | some pr =>
        obtain ⟨cs', r'⟩ := pr
        rw [hnr] at h
        simp only [Option.some.injEq, Prod.mk.injEq] at h
        obtain ⟨hc, hr⟩ := h
        subst hc
        subst hr
        simp only [List.map_cons, List.cons_append, List.cons.injEq, true_and]
        exact ih _ _ hnr
    all_goals
      simp only [numRun, Option.some.injEq, Prod.mk.injEq] at h
      obtain ⟨hc, hr⟩ := h
      subst hc
      subst hr
      simp

theorem numRun_isSome_of_eof (s : List Token) (h : Token.EOF ∈ s) :
    ∃ cs rest, numRun s = some (cs, rest) := by
  induction s with
  | nil => simp at h
  | cons t ts ih =>
    cases t
    case Num c =>
      have hts : Token.EOF ∈ ts := by
        rcases List.mem_cons.mp h with h1 | h1
        · exact absurd h1 (by simp)
        · exact h1
      obtain ⟨cs, rest, hnr⟩ := ih hts
      exact ⟨c :: cs, rest, by rw [numRun, hnr]⟩
    all_goals exact ⟨[], _, rfl⟩

theorem alphaRun_decomp (s : List Token) :
    ∀ cs rest, alphaRun s = some (cs, rest) → s = cs.map Token.Alpha ++ rest := by
  induction s with
  | nil => intro cs rest h; simp [alphaRun] at h
  | cons t ts ih =>
    intro cs rest h
    cases t
    case Alpha c =>
      rw [alphaRun] at h
      cases hnr : alphaRun ts with
      | none => rw [hnr] at h; simp at h
      | some pr =>
        obtain ⟨cs', r'⟩ := pr
        rw [hnr] at h
        simp only [Option.some.injEq, Prod.mk.injEq] at h
        obtain ⟨hc, hr⟩ := h
        subst hc
        subst hr
        simp only [List.map_cons, List.cons_append, List.cons.injEq, true_and]
        exact ih _ _ hnr
    all_goals
      simp only [alphaRun, Option.some.injEq, Prod.mk.injEq] at h
      obtain ⟨hc, hr⟩ := h
      subst hc
      subst hr
      simp

theorem alphaRun_isSome_of_eof (s : List Token) (h : Token.EOF ∈ s) :
    ∃ cs rest, alphaRun s = some (cs, rest) := by
  induction s with
  | nil => simp at h
  | cons t ts ih =>
    cases t
    case Alpha c =>
      have hts : Token.EOF ∈ ts := by
        rcases List.mem_cons.mp h with h1 | h1
        · exact absurd h1 (by simp)
        · exact h1
      obtain ⟨cs, rest, hnr⟩ := ih hts
      exact ⟨c :: cs, rest, by rw [alphaRun, hnr]⟩
    all_goals exact ⟨[], _, rfl⟩

theorem eof_mem_of_numRun {s : List Token} {cs : List Char} {rest : List Token}
    (h : numRun s = some (cs, rest)) (he : Token.EOF ∈ s) : Token.EOF ∈ rest := by
  rcases List.mem_append.mp (numRun_decomp s cs rest h ▸ he) with h1 | h1
  · obtain ⟨c, _, hc⟩ := List.mem_map.mp h1
    exact absurd hc (by simp)
  · exact h1

theorem eof_mem_of_alphaRun {s : List Token} {cs : List Char} {rest : List Token}
    (h : alphaRun s = some (cs, rest)) (he : Token.EOF ∈ s) : Token.EOF ∈ rest := by
  rcases List.mem_append.mp (alphaRun_decomp s cs rest h ▸ he) with h1 | h1
  · obtain ⟨c, _, hc⟩ := List.mem_map.mp h1
    exact absurd hc (by simp)
  · exact h1

theorem parseUsize_nil : parseUsize [] = none := rfl

theorem parseUsize_ne_nil {cs : List Char} {n : Nat} (h : parseUsize cs = some n) :
    cs ≠ [] := by
  intro hc
  rw [hc, parseUsize_nil] at h
  exact absurd h (by simp)

/-- get_num never panics when the slice still holds the EOF token, and a
successful read keeps EOF in the remainder and consumes at least one
token. -/
theorem get_num_progress (s : List Token) (he : Token.EOF ∈ s) :
    get_num s ≠ none ∧
      ∀ rest n, get_num s = some (.ok (rest, n)) →
        Token.EOF ∈ rest ∧ rest.length < s.length := by
  obtain ⟨cs, rest0, hnr⟩ := numRun_isSome_of_eof s he
  constructor
  · simp only [get_num, hnr]
    cases parseUsize cs <;> simp
  · intro rest n h
    simp only [get_num, hnr] at h
    cases hp : parseUsize cs with
    | none => simp only [hp] at h; simp at h
    | some m =>
      simp only [hp, Option.some.injEq, Except.ok.injEq, Prod.mk.injEq] at h
      obtain ⟨hr, _⟩ := h
      subst hr
      refine ⟨eof_mem_of_numRun hnr he, ?_⟩
      have hd := numRun_decomp s cs rest0 hnr
      have hne : cs ≠ [] := parseUsize_ne_nil hp
      have : s.length = cs.length + rest0.length := by
        rw [hd, List.length_append, List.length_map]
      have hcs : 0 < cs.length := List.length_pos.mpr hne
      omega

/-- alpha_to_num rejects the empty string for every kind. -/
theorem alpha_to_num_empty (k : FieldKind) (n : Nat) : alpha_to_num k "" ≠ .ok n := by
  cases k <;> simp [alpha_to_num, monthNames, dayNames, List.findIdx?]

/-- get_val never panics when the slice still holds the EOF token, and a
successful read keeps EOF in the remainder and consumes at least one
token. -/
theorem get_val_progress (k : FieldKind) (s : List Token) (he : Token.EOF ∈ s) :
    get_val k s ≠ none ∧
      ∀ rest n, get_val k s = some (.ok (rest, n)) →
        Token.EOF ∈ rest ∧ rest.length < s.length := by
  obtain ⟨hgn, hgo⟩ := get_num_progress s he
  cases hn : get_num s with
  | none => exact absurd hn hgn
  | some r =>
    cases r with
    | ok pr =>
      obtain ⟨rest0, n0⟩ := pr
      constructor
      · simp [get_val, hn]
      · intro rest n h
        simp only [get_val, hn, Option.some.injEq, Except.ok.injEq, Prod.mk.injEq] at h
        obtain ⟨hr, hm⟩ := h
        subst hr
        exact hgo _ n0 hn
    | error e =>
      obtain ⟨cs, rest0, har⟩ := alphaRun_isSome_of_eof s he
      constructor
      · simp only [get_val, hn, har]
        cases alpha_to_num k (String.mk (cs.map asciiUpper)) <;> simp
      · intro rest n h
        simp only [get_val, hn, har] at h
        cases ha : alpha_to_num k (String.mk (cs.map asciiUpper)) with
        | error e2 => simp only [ha] at h; simp at h
        | ok m =>
          simp only [ha, Option.some.injEq, Except.ok.injEq, Prod.mk.injEq] at h
          obtain ⟨hr, _⟩ := h
          subst hr
          refine ⟨eof_mem_of_alphaRun har he, ?_⟩
          have hd := alphaRun_decomp s cs rest0 har
          have hne : cs ≠ [] := by
            intro hc
            subst hc
            simp only [List.map_nil] at ha
            exact alpha_to_num_empty k m ha
          have : s.length = cs.length + rest0.length := by
            rw [hd, List.length_append, List.length_map]
          have hcs : 0 < cs.length := List.length_pos.mpr hne
          omega

theorem eof_mem_tail {t : Token} {ts : List Token} (he : Token.EOF ∈ t :: ts)
    (hne : t ≠ Token.EOF) : Token.EOF ∈ ts := by
  rcases List.mem_cons.mp he with h1 | h1
  · exact absurd h1.symm hne
  · exact h1

/-- from_toks never panics when the slice still holds the EOF token, and a
successful parse keeps EOF in the remainder and consumes at least one
token. -/
theorem from_toks_progress (k : FieldKind) (pats : List (Pattern Value)) (s : List Token)
    (he : Token.EOF ∈ s) :
    from_toks k pats s ≠ none ∧
      ∀ pats' rest, from_toks k pats s = some (.ok (pats', rest)) →
        Token.EOF ∈ rest ∧ rest.length < s.length := by
  cases s with
  | nil => simp at he
  | cons t0 tail =>
    by_cases ht0 : t0 = Token.Asterik
    · subst ht0
      have htl : Token.EOF ∈ tail := eof_mem_tail he (by simp)
      cases tail with
      | nil => simp at htl
      | cons t1 tail2 =>
        simp only [from_toks, eq_self_iff_true, if_true]
        cases t1 with
        | Asterik => simp
        | Comma =>
          refine ⟨by simp, ?_⟩
          intro pats' rest h
          simp only [Option.some.injEq, Except.ok.injEq, Prod.mk.injEq] at h
          obtain ⟨_, hr⟩ := h
          subst hr
          exact ⟨htl, by simp⟩
        | Num c => simp
        | Dash => simp
        | Alpha c => simp
        | EOF =>
          refine ⟨by simp, ?_⟩
          intro pats' rest h
          simp only [Option.some.injEq, Except.ok.injEq, Prod.mk.injEq] at h
          obtain ⟨_, hr⟩ := h
          subst hr
          exact ⟨htl, by simp⟩
        | Delim =>
          refine ⟨by simp, ?_⟩
          intro pats' rest h
          simp only [Option.some.injEq, Except.ok.injEq, Prod.mk.injEq] at h
          obtain ⟨_, hr⟩ := h
          subst hr
          exact ⟨htl, by simp⟩
        | Slash =>
          have h2 : Token.EOF ∈ tail2 := eof_mem_tail htl (by simp)
          obtain ⟨hgn, hgo⟩ := get_num_progress tail2 h2
          cases hn : get_num tail2 with
          | none => exact absurd hn hgn
          | some r =>
            cases r with
            | error e => simp [hn]
            | ok pr =>
              obtain ⟨ret, num⟩ := pr
              simp only [hn]
              refine ⟨by simp, ?_⟩
              intro pats' rest h
              simp only [Option.some.injEq, Except.ok.injEq, Prod.mk.injEq] at h
              obtain ⟨_, hr⟩ := h
              subst hr
              obtain ⟨hm, hl⟩ := hgo ret num hn
              exact ⟨hm, by simp only [List.length_cons]; omega⟩
    · simp only [from_toks, if_neg ht0]
      obtain ⟨hvn, hvo⟩ := get_val_progress k (t0 :: tail) he
      cases hv : get_val k (t0 :: tail) with
      | none => exact absurd hv hvn
      | some r =>
        cases r with
        | error e => simp [hv]
        | ok pr =>
          obtain ⟨ret, num1⟩ := pr
          simp only [hv]
          obtain ⟨hm1, hl1⟩ := hvo ret num1 hv
          cases ret with
          | nil => simp at hm1
          | cons r0 rtail =>
            cases r0 with
            | Asterik => simp
            | Num c => simp
            | Slash => simp
            | Alpha c => simp
            | EOF =>
              cases hfn : from_num k num1 with
              | error e => simp [hfn]
              | ok v =>
                simp only [hfn]
                refine ⟨by simp, ?_⟩
                intro pats' rest h
                simp only [Option.some.injEq, Except.ok.injEq, Prod.mk.injEq] at h
                obtain ⟨_, hr⟩ := h
                subst hr
                exact ⟨hm1, hl1⟩
            | Delim =>
              cases hfn : from_num k num1 with
              | error e => simp [hfn]
              | ok v =>
                simp only [hfn]
                refine ⟨by simp, ?_⟩
                intro pats' rest h
                simp only [Option.some.injEq, Except.ok.injEq, Prod.mk.injEq] at h
                obtain ⟨_, hr⟩ := h
                subst hr
                exact ⟨hm1, hl1⟩
            | Comma =>
              cases hfn : from_num k num1 with
              | error e => simp [hfn]
              | ok v =>
                simp only [hfn]
                refine ⟨by simp, ?_⟩
                intro pats' rest h
                simp only [Option.some.injEq, Except.ok.injEq, Prod.mk.injEq] at h
                obtain ⟨_, hr⟩ := h
                subst hr
                exact ⟨hm1, hl1⟩
            | Dash =>
              have hm1' : Token.EOF ∈ rtail := eof_mem_tail hm1 (by simp)
              obtain ⟨hwn, hwo⟩ := get_val_progress k rtail hm1'
              cases hw : get_val k rtail with
              | none => exact absurd hw hwn
              | some r2 =>
                cases r2 with
                | error e => simp [hw]
                | ok pr2 =>
                  obtain ⟨ret2, num2⟩ := pr2
                  simp only [hw]
                  obtain ⟨hm2, hl2⟩ := hwo ret2 num2 hw
                  by_cases hle : num2 ≤ num1
                  · simp [if_pos hle]
                  · simp only [if_neg hle]
                    cases ret2 with
                    | nil => simp at hm2
                    | cons s0 stail =>
                      have hlen2 : stail.length + 1 < tail.length + 1 := by
                        simp only [List.length_cons] at hl1 hl2
                        omega
                      cases s0 with
                      | Asterik => simp
                      | Num c => simp
                      | Dash => simp
                      | Alpha c => simp
                      | EOF =>
                        cases hf1 : from_num k num1 with
                        | error e => simp [hf1]
                        | ok v1 =>
                          cases hf2 : from_num k num2 with
                          | error e => simp [hf1, hf2]
                          | ok v2 =>
                            simp only [hf1, hf2]
                            refine ⟨by simp, ?_⟩
                            intro pats' rest h
                            simp only [Option.some.injEq, Except.ok.injEq,
                              Prod.mk.injEq] at h
                            obtain ⟨_, hr⟩ := h
                            subst hr
                            exact ⟨hm2, by simpa using hlen2⟩
                      | Delim =>
                        cases hf1 : from_num k num1 with
                        | error e => simp [hf1]
                        | ok v1 =>
                          cases hf2 : from_num k num2 with
                          | error e => simp [hf1, hf2]
                          | ok v2 =>
                            simp only [hf1, hf2]
                            refine ⟨by simp, ?_⟩
                            intro pats' rest h
                            simp only [Option.some.injEq, Except.ok.injEq,
                              Prod.mk.injEq] at h
                            obtain ⟨_, hr⟩ := h
                            subst hr
                            exact ⟨hm2, by simpa using hlen2⟩
                      | Comma =>
                        cases hf1 : from_num k num1 with
                        | error e => simp [hf1]
                        | ok v1 =>
                          cases hf2 : from_num k num2 with
                          | error e => simp [hf1, hf2]
                          | ok v2 =>
                            simp only [hf1, hf2]
                            refine ⟨by simp, ?_⟩
                            intro pats' rest h
                            simp only [Option.some.injEq, Except.ok.injEq,
                              Prod.mk.injEq] at h
                            obtain ⟨_, hr⟩ := h
                            subst hr
                            exact ⟨hm2, by simpa using hlen2⟩
                      | Slash =>
                        have hm2' : Token.EOF ∈ stail := eof_mem_tail hm2 (by simp)
                        obtain ⟨hsn, hso⟩ := get_num_progress stail hm2'
                        cases hsg : get_num stail with
                        | none => exact absurd hsg hsn
                        | some r3 =>
                          cases r3 with
                          | error e => simp [hsg]
                          | ok pr3 =>
                            obtain ⟨rets, step⟩ := pr3
                            simp only [hsg]
                            obtain ⟨hm3, hl3⟩ := hso rets step hsg
                            cases hf1 : from_num k num1 with
                            | error e => simp [hf1]
                            | ok v1 =>
                              cases hf2 : from_num k num2 with
                              | error e => simp [hf1, hf2]
                              | ok v2 =>
                                simp only [hf1, hf2]
                                refine ⟨by simp, ?_⟩
                                intro pats' rest h
                                simp only [Option.some.injEq, Except.ok.injEq,
                                  Prod.mk.injEq] at h
                                obtain ⟨_, hr⟩ := h
                                subst hr
                                refine ⟨hm3, ?_⟩
                                simp only [List.length_cons] at hl1 hl2 hl3 ⊢
                                omega

/-- Everything a successful from_toks appends: exactly one pattern at the
end of the list, whose At value and Range bounds come out of from_num
(the domain check) and whose Range bounds satisfy the strict ordering of
the underlying numbers. -/
theorem from_toks_shape (k : FieldKind) (pats : List (Pattern Value)) (s : List Token)
    (pats' : List (Pattern Value)) (rest : List Token)
    (h : from_toks k pats s = some (.ok (pats', rest))) :
    ∃ p, pats' = pats ++ [p] ∧
      (∀ v, p = Pattern.At v → ∃ n, from_num k n = .ok v) ∧
      (∀ v1 v2 st, p = Pattern.Range v1 v2 st →
        ∃ n1 n2, from_num k n1 = .ok v1 ∧ from_num k n2 = .ok v2 ∧ n1 < n2) := by
  cases s with
  | nil => simp [from_toks] at h
  | cons t0 tail =>
    by_cases ht0 : t0 = Token.Asterik
    · subst ht0
      cases tail with
      | nil => simp [from_toks] at h
      | cons t1 tail2 =>
        simp only [from_toks, eq_self_iff_true, if_true] at h
        cases t1 with
        | Asterik => simp at h
        | Num c => simp at h
        | Dash => simp at h
        | Alpha c => simp at h
        | EOF =>
          simp only [Option.some.injEq, Except.ok.injEq, Prod.mk.injEq] at h
          exact ⟨Pattern.Every 1, h.1.symm, by simp, by simp⟩
        | Delim =>
          simp only [Option.some.injEq, Except.ok.injEq, Prod.mk.injEq] at h
          exact ⟨Pattern.Every 1, h.1.symm, by simp, by simp⟩
        | Comma =>
          simp only [Option.some.injEq, Except.ok.injEq, Prod.mk.injEq] at h
          exact ⟨Pattern.Every 1, h.1.symm, by simp, by simp⟩
        | Slash =>
          cases hn : get_num tail2 with
          | none => simp only [hn] at h; exact absurd h (by simp)
          | some r =>
            cases r with
            | error e => simp only [hn] at h; exact absurd h (by simp)
            | ok pr =>
              obtain ⟨ret, num⟩ := pr
              simp only [hn, Option.some.injEq, Except.ok.injEq, Prod.mk.injEq] at h
              exact ⟨Pattern.Every num, h.1.symm, by simp, by simp⟩
    · simp only [from_toks, if_neg ht0] at h
      cases hv : get_val k (t0 :: tail) with
      | none => simp only [hv] at h; exact absurd h (by simp)
      | some r =>
        cases r with
        | error e => simp only [hv] at h; exact absurd h (by simp)
        | ok pr =>
          obtain ⟨ret, num1⟩ := pr
          simp only [hv] at h
          cases ret with
          | nil => exact absurd h (by simp)
          | cons r0 rtail =>
            cases r0 with
            | Asterik => exact absurd h (by simp)
            | Num c => exact absurd h (by simp)
            | Slash => exact absurd h (by simp)
            | Alpha c => exact absurd h (by simp)
            | EOF =>
              cases hfn : from_num k num1 with
              | error e => simp only [hfn] at h; exact absurd h (by simp)
              | ok v =>
                simp only [hfn, Option.some.injEq, Except.ok.injEq, Prod.mk.injEq] at h
                refine ⟨Pattern.At v, h.1.symm, ?_, by simp⟩
                intro v' hv'
                injection hv' with h2
                subst h2
                exact ⟨num1, hfn⟩
            | Delim =>
              cases hfn : from_num k num1 with
              | error e => simp only [hfn] at h; exact absurd h (by simp)
              | ok v =>
                simp only [hfn, Option.some.injEq, Except.ok.injEq, Prod.mk.injEq] at h
                refine ⟨Pattern.At v, h.1.symm, ?_, by simp⟩
                intro v' hv'
                injection hv' with h2
                subst h2
                exact ⟨num1, hfn⟩
            | Comma =>
              cases hfn : from_num k num1 with
              | error e => simp only [hfn] at h; exact absurd h (by simp)
              | ok v =>
                simp only [hfn, Option.some.injEq, Except.ok.injEq, Prod.mk.injEq] at h
                refine ⟨Pattern.At v, h.1.symm, ?_, by simp⟩
                intro v' hv'
                injection hv' with h2
                subst h2
                exact ⟨num1, hfn⟩
            | Dash =>
              cases hw : get_val k rtail with
              | none => simp only [hw] at h; exact absurd h (by simp)
              | some r2 =>
                cases r2 with
                | error e => simp only [hw] at h; exact absurd h (by simp)
                | ok pr2 =>
                  obtain ⟨ret2, num2⟩ := pr2
                  simp only [hw] at h
                  by_cases hle : num2 ≤ num1
                  · rw [if_pos hle] at h
                    exact absurd h (by simp)
                  · rw [if_neg hle] at h
                    cases ret2 with
                    | nil => exact absurd h (by simp)
                    | cons s0 stail =>
                      cases s0 with
                      | Asterik => exact absurd h (by simp)
                      | Num c => exact absurd h (by simp)
                      | Dash => exact absurd h (by simp)
                      | Alpha c => exact absurd h (by simp)
                      | EOF =>
                        cases hf1 : from_num k num1 with
                        | error e => simp only [hf1] at h; exact absurd h (by simp)
                        | ok v1 =>
                          cases hf2 : from_num k num2 with
                          | error e =>
                            simp only [hf1, hf2] at h
                            exact absurd h (by simp)
                          | ok v2 =>
                            simp only [hf1, hf2, Option.some.injEq, Except.ok.injEq,
                              Prod.mk.injEq] at h
                            refine ⟨Pattern.Range v1 v2 1, h.1.symm, by simp, ?_⟩
                            intro v1' v2' st' hv'
                            injection hv' with h2 h3 h4
                            subst h2
                            subst h3
                            exact ⟨num1, num2, hf1, hf2, by omega⟩
                      | Delim =>
                        cases hf1 : from_num k num1 with
                        | error e => simp only [hf1] at h; exact absurd h (by simp)
                        | ok v1 =>
                          cases hf2 : from_num k num2 with
                          | error e =>
                            simp only [hf1, hf2] at h
                            exact absurd h (by simp)
                          | ok v2 =>
                            simp only [hf1, hf2, Option.some.injEq, Except.ok.injEq,
                              Prod.mk.injEq] at h
                            refine ⟨Pattern.Range v1 v2 1, h.1.symm, by simp, ?_⟩
                            intro v1' v2' st' hv'
                            injection hv' with h2 h3 h4
                            subst h2
                            subst h3
                            exact ⟨num1, num2, hf1, hf2, by omega⟩
                      | Comma =>
                        cases hf1 : from_num k num1 with
                        | error e => simp only [hf1] at h; exact absurd h (by simp)
                        | ok v1 =>
                          cases hf2 : from_num k num2 with
                          | error e =>
                            simp only [hf1, hf2] at h
                            exact absurd h (by simp)
                          | ok v2 =>
                            simp only [hf1, hf2, Option.some.injEq, Except.ok.injEq,
                              Prod.mk.injEq] at h
                            refine ⟨Pattern.Range v1 v2 1, h.1.symm, by simp, ?_⟩
                            intro v1' v2' st' hv'
                            injection hv' with h2 h3 h4
                            subst h2
                            subst h3
                            exact ⟨num1, num2, hf1, hf2, by omega⟩
                      | Slash =>
                        cases hsg : get_num stail with
                        | none => simp only [hsg] at h; exact absurd h (by simp)
                        | some r3 =>
                          cases r3 with
                          | error e => simp only [hsg] at h; exact absurd h (by simp)
                          | ok pr3 =>
                            obtain ⟨rets, step⟩ := pr3
                            cases hf1 : from_num k num1 with
                            | error e =>
                              simp only [hsg, hf1] at h
                              exact absurd h (by simp)
                            | ok v1 =>
                              cases hf2 : from_num k num2 with
                              | error e =>
                                simp only [hsg, hf1, hf2] at h
                                exact absurd h (by simp)
                              | ok v2 =>
                                simp only [hsg, hf1, hf2, Option.some.injEq,
                                  Except.ok.injEq, Prod.mk.injEq] at h
                                refine ⟨Pattern.Range v1 v2 step, h.1.symm, by simp, ?_⟩
                                intro v1' v2' st' hv'
                                injection hv' with h2 h3 h4
                                subst h2
                                subst h3
                                exact ⟨num1, num2, hf1, hf2, by omega⟩

theorem skipDelims_progress (ts : List Token) (he : Token.EOF ∈ ts) :
    skipDelims ts ≠ none ∧
      ∀ p, skipDelims ts = some (some p) → Token.EOF ∈ p ∧ p.length ≤ ts.length := by
  induction ts with
  | nil => simp at he
  | cons t ts ih =>
    cases t with
    | Delim =>
      obtain ⟨h1, h2⟩ := ih (eof_mem_tail he (by simp))
      simp only [skipDelims]
      refine ⟨h1, ?_⟩
      intro p hp
      obtain ⟨hm, hl⟩ := h2 p hp
      exact ⟨hm, by simp only [List.length_cons]; omega⟩
    | EOF =>
      simp only [skipDelims]
      exact ⟨by simp, by intro p hp; simp at hp⟩
    | Asterik =>
      simp only [skipDelims]
      refine ⟨by simp, ?_⟩
      intro p hp
      simp only [Option.some.injEq] at hp
      subst hp
      exact ⟨he, le_refl _⟩
    | Comma =>
      simp only [skipDelims]
      refine ⟨by simp, ?_⟩
      intro p hp
      simp only [Option.some.injEq] at hp
      subst hp
      exact ⟨he, le_refl _⟩
    | Num c =>
      simp only [skipDelims]
      refine ⟨by simp, ?_⟩
      intro p hp
      simp only [Option.some.injEq] at hp
      subst hp
      exact ⟨he, le_refl _⟩
    | Dash =>
      simp only [skipDelims]
      refine ⟨by simp, ?_⟩
      intro p hp
      simp only [Option.some.injEq] at hp
      subst hp
      exact ⟨he, le_refl _⟩
    | Slash =>
      simp only [skipDelims]
      refine ⟨by simp, ?_⟩
      intro p hp
      simp only [Option.some.injEq] at hp
      subst hp
      exact ⟨he, le_refl _⟩
    | Alpha c =>
      simp only [skipDelims]
      refine ⟨by simp, ?_⟩
      intro p hp
      simp only [Option.some.injEq] at hp
      subst hp
      exact ⟨he, le_refl _⟩

theorem sepStep_progress (ptr : List Token) (he : Token.EOF ∈ ptr) :
    sepStep ptr ≠ none ∧
      ∀ p, sepStep ptr = some (SepRes.cont p) →
        Token.EOF ∈ p ∧ p.length < ptr.length := by
  cases ptr with
  | nil => simp at he
  | cons t ts =>
    cases t with
    | Delim =>
      obtain ⟨h1, h2⟩ := skipDelims_progress ts (eof_mem_tail he (by simp))
      simp only [sepStep, skipDelims]
      cases hsd : skipDelims ts with
      | none => exact absurd hsd h1
      | some o =>
        cases o with
        | none => exact ⟨by simp, by intro p hp; simp at hp⟩
        | some p =>
          refine ⟨by simp, ?_⟩
          intro p' hp'
          simp only [Option.some.injEq, SepRes.cont.injEq] at hp'
          subst hp'
          obtain ⟨hm, hl⟩ := h2 p hsd
          exact ⟨hm, by simp only [List.length_cons]; omega⟩
    | Comma =>
      simp only [sepStep]
      refine ⟨by simp, ?_⟩
      intro p hp
      simp only [Option.some.injEq, SepRes.cont.injEq] at hp
      subst hp
      exact ⟨eof_mem_tail he (by simp), by simp⟩
    | EOF =>
      simp only [sepStep]
      exact ⟨by simp, by intro p hp; simp at hp⟩
    | Asterik =>
      simp only [sepStep]
      exact ⟨by simp, by intro p hp; simp at hp⟩
    | Num c =>
      simp only [sepStep]
      exact ⟨by simp, by intro p hp; simp at hp⟩
    | Dash =>
      simp only [sepStep]
      exact ⟨by simp, by intro p hp; simp at hp⟩
    | Slash =>
      simp only [sepStep]
      exact ⟨by simp, by intro p hp; simp at hp⟩
    | Alpha c =>
      simp only [sepStep]
      exact ⟨by simp, by intro p hp; simp at hp⟩

/-- The field loop never panics (and never exhausts its fuel) as long as
the EOF token is still ahead and the fuel exceeds the slice length. -/
theorem fieldsLoopF_no_panic (fuel : Nat) :
    ∀ (ptr : List Token) (fs : Fields) (st : FieldType),
      Token.EOF ∈ ptr → ptr.length < fuel →
        (fieldsLoopF fuel fs st ptr).2 ≠ LoopRes.panic := by
  induction fuel with
  | zero => intro ptr fs st he hl; omega
  | succ fuel ih =>
    intro ptr fs st he hl
    obtain ⟨hsn, hsc⟩ := sepStep_progress ptr he
    simp only [fieldsLoopF]
    cases hs : sepStep ptr with
    | none => exact absurd hs hsn
    | some sr =>
      cases sr with
      | brk => simp
      | badTok => simp
      | cont ptr1 =>
        obtain ⟨hm1, hl1⟩ := hsc ptr1 hs
        cases hk : stKind st with
        | none => simp
        | some k =>
          obtain ⟨hfn, hfo⟩ := from_toks_progress k (getPats fs k) ptr1 hm1
          cases hf : from_toks k (getPats fs k) ptr1 with
          | none => exact absurd hf hfn
          | some r =>
            cases r with
            | error e => simp [hf]
            | ok pr =>
              obtain ⟨pats', ptr2⟩ := pr
              obtain ⟨hm2, hl2⟩ := hfo pats' ptr2 hf
              simp only [hf]
              cases ptr2 with
              | nil => simp at hm2
              | cons t2 rest2 =>
                exact ih (t2 :: rest2) (setPats fs k pats')
                  (if t2 = Token.Delim ∨ t2 = Token.EOF then advanceState st else st)
                  hm2 (by omega)

theorem lastTok_isSome (l : List Token) (h : l ≠ []) : ∃ t, lastTok l = some t := by
  induction l with
  | nil => exact absurd rfl h
  | cons a l ih =>
    cases l with
    | nil => exact ⟨a, rfl⟩
    | cons b m =>
      obtain ⟨t, ht⟩ := ih (by simp)
      exact ⟨t, by rw [lastTok]; exact ht⟩

theorem lastTok_mem (l : List Token) (t : Token) (h : lastTok l = some t) : t ∈ l := by
  induction l with
  | nil => simp [lastTok] at h
  | cons a l ih =>
    cases l with
    | nil =>
      simp only [lastTok, Option.some.injEq] at h
      simp [h]
    | cons b m =>
      rw [lastTok] at h
      exact List.mem_cons_of_mem a (ih h)

/-- The parse-then-render pipeline never panics: the pre-validation pass
guarantees the token vector ends in EOF before the field loop runs. -/
theorem respondCore_no_panic (s : String) : (respondCore s).2 ≠ ROut.panic := by
  rw [respondCore]
  cases hlt : lastTok (tokenize s.data) with
  | none =>
    obtain ⟨t, ht⟩ := lastTok_isSome (tokenize s.data) (by simp [tokenize])
    rw [ht] at hlt
    cases hlt
  | some t =>
    by_cases hte : t = Token.EOF
    · subst hte
      have hmem : Token.EOF ∈ tokenize s.data := lastTok_mem _ _ hlt
      have hnp := fieldsLoopF_no_panic ((tokenize s.data).length + 1) (tokenize s.data)
        ⟨[], [], [], [], []⟩ FieldType.Minute hmem (by omega)
      cases hfl : fieldsLoopF ((tokenize s.data).length + 1) ⟨[], [], [], [], []⟩
          FieldType.Minute (tokenize s.data) with
      | mk o r =>
        cases r with
        | panic => rw [hfl] at hnp; simp at hnp
        | err e => simp [hfl]
        | done fs st =>
          by_cases hst : st = FieldType.End
          · simp [hfl, hst]
          · simp [hfl, hst]
    · simp [hte]

theorem firstLine_none_iff (req : String) : firstLine req = none ↔ req = "" := by
  constructor
  · intro h
    rw [firstLine] at h
    by_cases hd : req.data = []
    · cases req with
      | mk l => simp only [String.data] at hd; rw [hd]
    · rw [if_neg hd] at h
      simp at h
  · intro h
    subst h
    rfl

/-- C1, counterexample: the step of an Every pattern is appended without
any domain check. From the minute field's tokens for the pattern star
slash 100, from_toks appends Every(100) even though 100 fails the minute
domain check. -/
theorem c1_counterexample :
    from_toks FieldKind.Minute []
        [Token.Asterik, Token.Slash, Token.Num '1', Token.Num '0', Token.Num '0',
          Token.EOF] =
      some (Except.ok ([Pattern.Every 100], [Token.EOF])) ∧
    from_num FieldKind.Minute 100 = Except.error "Invalid MINUTE value 100" := by
  exact ⟨by decide, by decide⟩

/-- C1, amended: for every pattern accepted into a field, the value of At
and the bounds of Range pass the field kind's domain check (from_num)
before the pattern is appended; the steps of Every and of Range are taken
from the numeric lexer without a domain check. -/
theorem c1_amended_domain_check (k : FieldKind) (pats : List (Pattern Value))
    (s : List Token) (pats' : List (Pattern Value)) (rest : List Token)
    (h : from_toks k pats s = some (.ok (pats', rest))) :
    ∃ p, pats' = pats ++ [p] ∧
      (∀ v, p = Pattern.At v → ∃ n, from_num k n = .ok v) ∧
      (∀ v1 v2 st, p = Pattern.Range v1 v2 st →
        (∃ n1, from_num k n1 = .ok v1) ∧ (∃ n2, from_num k n2 = .ok v2)) := by
  obtain ⟨p, h1, h2, h3⟩ := from_toks_shape k pats s pats' rest h
  refine ⟨p, h1, h2, ?_⟩
  intro v1 v2 st hp
  obtain ⟨n1, n2, a, b, _⟩ := h3 v1 v2 st hp
  exact ⟨⟨n1, a⟩, ⟨n2, b⟩⟩

/-- C1, witness: parsing the single minute value 5 appends At(5), whose
value passed the minute domain check. -/
theorem c1_witness :
    ∃ p, [Pattern.At (Value.num 5)] = ([] : List (Pattern Value)) ++ [p] ∧
      (∀ v, p = Pattern.At v → ∃ n, from_num FieldKind.Minute n = .ok v) ∧
      (∀ v1 v2 st, p = Pattern.Range v1 v2 st →
        (∃ n1, from_num FieldKind.Minute n1 = .ok v1) ∧
          (∃ n2, from_num FieldKind.Minute n2 = .ok v2)) :=
  c1_amended_domain_check FieldKind.Minute [] [Token.Num '5', Token.EOF]
    [Pattern.At (Value.num 5)] [Token.EOF] (by decide)

/-- C4, counterexample: an overflowing numeric run does not surface
NumberParseError from get_val. On twenty 9 digits (too large for usize),
get_num itself fails with the parse error, but get_val falls through to
the alpha branch and reports the named-value error for the empty run. -/
theorem c4_counterexample :
    get_val FieldKind.Minute (List.replicate 20 (Token.Num '9') ++ [Token.EOF]) =
      some (Except.error "Invalid MINUTE value ") ∧
    get_num (List.replicate 20 (Token.Num '9') ++ [Token.EOF]) =
      some (Except.error "Error parsing a number") ∧
    "Invalid MINUTE value " ≠ "Error parsing a number" :=
  ⟨by decide, by decide, by decide⟩

/-- C4, amended: get_val tries the maximal numeric run first and returns
its value when the parse succeeds; on any get_num failure (no numeric run,
or an overflowing or malformed parse) it falls back to the maximal Alpha
run, uppercased and resolved through the kind's name table, failing with
the name table's not-found error; it never returns get_num's
NumberParseError. -/
theorem c4_value_lexing (k : FieldKind) (s : List Token) :
    (∀ r, get_num s = some (Except.ok r) → get_val k s = some (Except.ok r)) ∧
    (get_num s = none → get_val k s = none) ∧
    (∀ e, get_num s = some (Except.error e) →
      get_val k s =
        match alphaRun s with
        | none => none
        | some (cs, rest) =>
          match alpha_to_num k (String.mk (cs.map asciiUpper)) with
          | Except.ok n => some (Except.ok (rest, n))
          | Except.error e2 => some (Except.error e2)) := by
  refine ⟨?_, ?_, ?_⟩
  · intro r h
    simp [get_val, h]
  · intro h
    simp [get_val, h]
  · intro e h
    simp only [get_val, h]

/-- C4, witness: a plain numeric run is taken by the numeric branch. -/
theorem c4_witness :
    get_val FieldKind.Minute [Token.Num '5', Token.EOF] =
      some (Except.ok ([Token.EOF], 5)) :=
  (c4_value_lexing FieldKind.Minute [Token.Num '5', Token.EOF]).1
    ([Token.EOF], 5) (by decide)

/-- C5: every Range pattern a field accepts was built from two
domain-checked numbers in strictly increasing order; a range whose end is
less than or equal to its start fails with the InvalidRange message naming
both bounds; and on the input 5 4 3-1 star star the response is exactly
that error with no output written, in particular no Run line. -/
theorem c5_range_invariant :
    (∀ (k : FieldKind) (pats : List (Pattern Value)) (s : List Token)
        (pats' : List (Pattern Value)) (rest : List Token) (v1 v2 : Value) (st : Nat),
      from_toks k pats s = some (.ok (pats', rest)) →
      pats' = pats ++ [Pattern.Range v1 v2 st] →
      ∃ n1 n2, from_num k n1 = .ok v1 ∧ from_num k n2 = .ok v2 ∧ n1 < n2) ∧
    (∀ (k : FieldKind) (pats : List (Pattern Value)) (t0 : Token)
        (tail rtail ret2 : List Token) (num1 num2 : Nat),
      t0 ≠ Token.Asterik →
      get_val k (t0 :: tail) = some (.ok (Token.Dash :: rtail, num1)) →
      get_val k rtail = some (.ok (ret2, num2)) →
      num2 ≤ num1 →
      from_toks k pats (t0 :: tail) = some (.error ("Range start (" ++ toString num1 ++
        ") cannot be bigger than or equal to end (" ++ toString num2 ++ ")"))) ∧
    respond "5 4 3-1 * *" =
      ("", ROut.err "Range start (3) cannot be bigger than or equal to end (1)") := by
  refine ⟨?_, ?_, by decide⟩
  · intro k pats s pats' rest v1 v2 st h hEq
    obtain ⟨p, h1, _, h3⟩ := from_toks_shape k pats s pats' rest h
    rw [h1] at hEq
    have hp : p = Pattern.Range v1 v2 st := by simpa using hEq
    exact h3 v1 v2 st hp
  · intro k pats t0 tail rtail ret2 num1 num2 ht0 hgv1 hgv2 hle
    simp only [from_toks, if_neg ht0, hgv1, hgv2, if_pos hle]

/-- C5, witness: the minute range 1-3 is accepted with domain-checked
bounds 1 and 3 in strict order. -/
theorem c5_witness :
    ∃ n1 n2, from_num FieldKind.Minute n1 = .ok (Value.num 1) ∧
      from_num FieldKind.Minute n2 = .ok (Value.num 3) ∧ n1 < n2 :=
  c5_range_invariant.1 FieldKind.Minute []
    [Token.Num '1', Token.Dash, Token.Num '3', Token.EOF]
    [Pattern.Range (Value.num 1) (Value.num 3) 1] [Token.EOF]
    (Value.num 1) (Value.num 3) 1 (by decide) (by decide)

/-- C7: the day-of-month domain check accepts a number exactly when it
lies in 1..23, and rejects everything else (0 and every value at least
24) with the DAY-OF-MONTH out-of-domain message. -/
theorem c7_day_of_month_domain (n : Nat) :
    ((∃ v, from_num FieldKind.DayOfMonth n = Except.ok v) ↔ 1 ≤ n ∧ n ≤ 23) ∧
    (¬(1 ≤ n ∧ n ≤ 23) →
      from_num FieldKind.DayOfMonth n =
        Except.error ("Invalid DAY-OF-MONTH value " ++ toString n)) := by
  constructor
  · constructor
    · rintro ⟨v, hv⟩
      by_contra hc
      simp only [from_num, if_neg hc] at hv
      exact absurd hv (by simp)
    · intro hc
      exact ⟨Value.num n, by simp [from_num, if_pos hc]⟩
  · intro hc
    simp [from_num, if_neg hc]

/-- C7, witness: 24 is rejected with the DAY-OF-MONTH message. -/
theorem c7_witness :
    from_num FieldKind.DayOfMonth 24 =
      Except.error ("Invalid DAY-OF-MONTH value " ++ toString 24) :=
  (c7_day_of_month_domain 24).2 (by decide)

/-- C10: a name missing from the month table makes the Month
alpha_to_num fail with a message naming DAY-OF-WEEK (the mislabelled
error in the source), while an out-of-range numeric month fails with the
MONTH-tagged message. -/
theorem c10_month_name_error_mislabelled (s : String) (n : Nat) :
    (monthNames.findIdx? (fun name => name == s) = none →
      alpha_to_num FieldKind.Month s =
        Except.error ("Invalid DAY-OF-WEEK value " ++ s)) ∧
    (n = 0 ∨ 13 ≤ n →
      from_num FieldKind.Month n =
        Except.error ("Invalid MONTH value " ++ toString n)) := by
  constructor
  · intro h
    simp [alpha_to_num, h]
  · intro h
    rcases h with h0 | h13
    · subst h0
      rfl
    · obtain ⟨m, rfl⟩ : ∃ m, n = m + 13 := ⟨n - 13, by omega⟩
      rfl

/-- C10, witness: the unknown month name FOO gets the DAY-OF-WEEK-tagged
message, and the numeric month 13 gets the MONTH-tagged message. -/
theorem c10_witness :
    alpha_to_num FieldKind.Month "FOO" =
      Except.error ("Invalid DAY-OF-WEEK value " ++ "FOO") ∧
    from_num FieldKind.Month 13 = Except.error ("Invalid MONTH value " ++ toString 13) :=
  ⟨(c10_month_name_error_mislabelled "FOO" 13).1 (by decide),
    (c10_month_name_error_mislabelled "FOO" 13).2 (Or.inr (by decide))⟩

theorem string_append_assoc (a b c : String) : a ++ b ++ c = a ++ (b ++ c) := by
  cases a with
  | mk la =>
    cases b with
    | mk lb =>
      cases c with
      | mk lc =>
        show String.mk (la ++ lb ++ lc) = String.mk (la ++ (lb ++ lc))
        rw [List.append_assoc]

theorem append_merge_lit (x s sp ssp : String) (h : s ++ sp = ssp) :
    x ++ s ++ sp = x ++ ssp := by
  rw [string_append_assoc, h]

theorem isDefinedB_iff (l : List (Pattern Value)) :
    isDefinedB l = true ↔ ∃ p ∈ l, p ≠ Pattern.Every 1 := by
  simp [isDefinedB]

/-- C2: the combination section follows the POSIX rule with the spec's
notion of defined (the pattern list holds a pattern other than Every(1)):
dom and month then the and line then dow when dm and dw, dom and month
only when dm and not dw, dom then dow when not dm and dw, month only when
neither, skipping dom and month wherever the on-month-day compaction
already printed them. -/
theorem c2_posix_combination (domp monp dowp : List (Pattern Value)) (printed : Bool) :
    renderCombine domp monp dowp printed =
      if (∃ p ∈ domp, p ≠ Pattern.Every 1) ∨ (∃ p ∈ monp, p ≠ Pattern.Every 1) then
        if ∃ p ∈ dowp, p ≠ Pattern.Every 1 then
          (if printed then ""
            else printField FieldKind.DayOfMonth domp ++ printField FieldKind.Month monp) ++
            "and\n" ++ printField FieldKind.DayOfWeek dowp
        else
          if printed then ""
          else printField FieldKind.DayOfMonth domp ++ printField FieldKind.Month monp
      else
        if ∃ p ∈ dowp, p ≠ Pattern.Every 1 then
          (if printed then "" else printField FieldKind.DayOfMonth domp) ++
            printField FieldKind.DayOfWeek dowp
        else
          if printed then "" else printField FieldKind.Month monp := by
  have hdm : ((isDefinedB domp || isDefinedB monp) = true) ↔
      ((∃ p ∈ domp, p ≠ Pattern.Every 1) ∨ (∃ p ∈ monp, p ≠ Pattern.Every 1)) := by
    simp [isDefinedB_iff]
  have hdw := isDefinedB_iff dowp
  cases hb1 : (isDefinedB domp || isDefinedB monp) with
  | false =>
    have hn1 : ¬((∃ p ∈ domp, p ≠ Pattern.Every 1) ∨ (∃ p ∈ monp, p ≠ Pattern.Every 1)) := by
      rw [← hdm, hb1]
      simp
    cases hb2 : isDefinedB dowp with
    | false =>
      have hn2 : ¬∃ p ∈ dowp, p ≠ Pattern.Every 1 := by
        rw [← hdw, hb2]
        simp
      simp only [renderCombine, hb1, hb2]
      rw [if_neg hn1, if_neg hn2]
    | true =>
      have hp2 : ∃ p ∈ dowp, p ≠ Pattern.Every 1 := hdw.mp hb2
      simp only [renderCombine, hb1, hb2]
      rw [if_neg hn1, if_pos hp2]
  | true =>
    have hp1 : (∃ p ∈ domp, p ≠ Pattern.Every 1) ∨ (∃ p ∈ monp, p ≠ Pattern.Every 1) :=
      hdm.mp hb1
    cases hb2 : isDefinedB dowp with
    | false =>
      have hn2 : ¬∃ p ∈ dowp, p ≠ Pattern.Every 1 := by
        rw [← hdw, hb2]
        simp
      simp only [renderCombine, hb1, hb2]
      rw [if_pos hp1, if_neg hn2]
    | true =>
      have hp2 : ∃ p ∈ dowp, p ≠ Pattern.Every 1 := hdw.mp hb2
      simp only [renderCombine, hb1, hb2]
      rw [if_pos hp1, if_pos hp2]

/-- C3, counterexample: two requests with the same first line can give
different results, because a non-shorthand request is tokenized whole:
the valid expression alone succeeds, while the same first line followed
by a second line fails. -/
theorem c3_counterexample :
    firstLine "0 0 1 1 *" = firstLine "0 0 1 1 *\n1" ∧
    respond "0 0 1 1 *" ≠ respond "0 0 1 1 *\n1" :=
  ⟨by decide, by decide⟩

/-- C3, amended: only when the shared first line is one of the shorthand
tokens does the first line alone determine the result; otherwise the core
tokenizes the entire request string, so characters after the first
newline can influence the result. -/
theorem c3_amended_first_line (req1 req2 line : String)
    (h1 : firstLine req1 = some line) (h2 : firstLine req2 = some line)
    (hsh : line ∈ ["@yearly", "@annually", "@monthly", "@weekly", "@daily",
      "@hourly", "@reboot"]) :
    respond req1 = respond req2 := by
  fin_cases hsh <;> simp [respond, h1, h2]

/-- C3, witness: two different at-daily requests render identically. -/
theorem c3_witness : respond "@daily\nA" = respond "@daily\nB" :=
  c3_amended_first_line "@daily\nA" "@daily\nB" "@daily" (by decide) (by decide)
    (by decide)

/-- C6: the rendering of Every and Range depends on the step only through
the step numeral and its residue mod 20: residue 1 yields the kind's
fixed every-unit phrase for Every (nothing when that phrase is empty) and
drops the step clause for Range; residue 2 yields nd, residue 3 yields
rd, every other residue yields th; in particular Every(1) never produces
the generic every-Nth form. -/
theorem c6_ordinal_suffix (k : FieldKind) (step : Nat) (a b : Value) :
    (printPat k (Pattern.Every step) =
      if step % 20 = 1 then (if everystr k = "" then "" else everystr k ++ "\n")
      else atword k ++ " every " ++ toString step ++ ordSuffix (step % 20) ++ " " ++
        typestr k ++ "\n") ∧
    (printPat k (Pattern.Range a b step) =
      if step % 20 = 1 then
        atword k ++ " every " ++ typestr k ++ " from " ++ dispV a ++ " to " ++
          dispV b ++ "\n"
      else atword k ++ " every " ++ toString step ++ ordSuffix (step % 20) ++ " " ++
        typestr k ++ " from " ++ dispV a ++ " to " ++ dispV b ++ "\n") ∧
    printPat k (Pattern.Every 1) = (if everystr k = "" then "" else everystr k ++ "\n") := by
  have hlt : step % 20 < 20 := Nat.mod_lt _ (by omega)
  refine ⟨?_, ?_, rfl⟩
  · simp only [printPat]
    generalize hm : step % 20 = m at hlt ⊢
    interval_cases m <;> simp [ordSuffix] <;>
      first
        | rw [append_merge_lit _ "nd" " " "nd " rfl]
        | rw [append_merge_lit _ "rd" " " "rd " rfl]
        | rw [append_merge_lit _ "th" " " "th " rfl]
  · simp only [printPat]
    generalize hm : step % 20 = m at hlt ⊢
    interval_cases m <;> simp [ordSuffix] <;>
      first
        | rw [append_merge_lit _ "nd" " " "nd " rfl]
        | rw [append_merge_lit _ "rd" " " "rd " rfl]
        | rw [append_merge_lit _ "th" " " "th " rfl]

/-- C8: once the pre-validation pass has produced a token vector ending in
EOF, the field-consuming loop cannot panic, and on any slice that still
holds the EOF token the maximal-run searches of get_num and get_val and
every slice access of from_toks stay in bounds. -/
theorem c8_parse_no_panic (cs : List Char)
    (h : lastTok (tokenize cs) = some Token.EOF) :
    (∀ fs st,
      (fieldsLoopF ((tokenize cs).length + 1) fs st (tokenize cs)).2 ≠ LoopRes.panic) ∧
    (∀ s, Token.EOF ∈ s →
      get_num s ≠ none ∧ (∀ k, get_val k s ≠ none) ∧
        ∀ k pats, from_toks k pats s ≠ none) := by
  constructor
  · intro fs st
    exact fieldsLoopF_no_panic _ _ fs st (lastTok_mem _ _ h) (by omega)
  · intro s hs
    exact ⟨(get_num_progress s hs).1, fun k => (get_val_progress k s hs).1,
      fun k pats => (from_toks_progress k pats s hs).1⟩

/-- C8, witness: the all-asterisks expression tokenizes to an
EOF-terminated vector and its field loop does not panic. -/
theorem c8_witness :
    (fieldsLoopF ((tokenize ("* * * * *".data)).length + 1) ⟨[], [], [], [], []⟩
      FieldType.Minute (tokenize ("* * * * *".data))).2 ≠ LoopRes.panic :=
  (c8_parse_no_panic ("* * * * *".data) (by decide)).1 ⟨[], [], [], [], []⟩
    FieldType.Minute

/-- C9: respond panics exactly on the empty request (the unwrap of a
missing first line); every request with at least one line is handled
without panicking. -/
theorem c9_empty_input_panics (req : String) :
    (respond req).2 = ROut.panic ↔ req = "" := by
  constructor
  · intro h
    by_contra hne
    cases hf : firstLine req with
    | none => exact hne ((firstLine_none_iff req).mp hf)
    | some line =>
      simp only [respond, hf] at h
      split_ifs at h <;> exact respondCore_no_panic _ h
  · intro h
    subst h
    rfl

end Cron
